import Mathlib

set_option maxHeartbeats 2000000
set_option maxRecDepth 8000

/-!
Verification of the NEMO loop-detector scanning engine (`class LoopDetector`).
Texts are shallowly embedded as `List Char`; JavaScript regular expressions
become explicit deterministic matchers over the character list (each regex in
the source is matched by exactly one matcher definition below).  JavaScript
`\s` and `\w` are modelled by their ASCII parts (the only characters the
scanner-relevant regexes can meet in the claims); `String.prototype.trim` is
modelled with the same whitespace set.
-/

namespace NemoScan

def lbrace : Char := Char.ofNat 123

def rbrace : Char := Char.ofNat 125

def squote : Char := Char.ofNat 39

def btick : Char := Char.ofNat 96

/-- ASCII part of the JavaScript `\s` class. -/
def isWs (c : Char) : Bool :=
  c.toNat = 32 || c.toNat = 9 || c.toNat = 10 || c.toNat = 13 ||
  c.toNat = 11 || c.toNat = 12

/-- The JavaScript `\w` class: `[A-Za-z0-9_]`. -/
def isWordChar (c : Char) : Bool :=
  (97 ≤ c.toNat && c.toNat ≤ 122) || (65 ≤ c.toNat && c.toNat ≤ 90) ||
  (48 ≤ c.toNat && c.toNat ≤ 57) || c.toNat = 95

/-- The three JS quote characters recognised by `findBlockEnd`. -/
def isQuoteChar (c : Char) : Bool := c = '"' || c = squote || c = btick

/-- Scanner state of `findBlockEnd`: brace depth plus string-tracking flag. -/
structure BState where
  depth : Int
  inString : Bool
  sChar : Option Char
deriving DecidableEq, Repr

/-- One step of the string-tracking logic of `findBlockEnd` (the
`if (!inString && ...) ... else if (inString && ...)` chain). -/
def stepString (inString : Bool) (sChar : Option Char) (prev : Option Char)
    (c : Char) : Bool × Option Char :=
  if inString = false ∧ isQuoteChar c = true then (true, some c)
  else if inString = true ∧ sChar = some c ∧ prev ≠ some '\\' then (false, none)
  else (inString, sChar)

/-- One character step of `findBlockEnd`: update the string state, then
adjust the brace depth when not inside a string. -/
def braceStep (s : BState) (prev : Option Char) (c : Char) : BState :=
  let p := stepString s.inString s.sChar prev c
  if p.1 = false ∧ c = lbrace then ⟨s.depth + 1, p.1, p.2⟩
  else if p.1 = false ∧ c = rbrace then ⟨s.depth - 1, p.1, p.2⟩
  else ⟨s.depth, p.1, p.2⟩

/-- Run `braceStep` over a character list (used to state brace balance). -/
def braceRun (s : BState) (prev : Option Char) : List Char → BState
  | [] => s
  | c :: rest => braceRun (braceStep s prev c) (some c) rest

/-- The loop of `findBlockEnd`: returns `some (i+1)` at the character where
the depth reaches zero after a decrement, `none` at end of text. -/
def fbeAux : List Char → Nat → BState → Option Char → Option Nat
  | [], _, _, _ => none
  | c :: rest, i, s, prev =>
    let s2 := braceStep s prev c
    if c = rbrace ∧ s2.inString = false ∧ s2.depth = 0 then some (i + 1)
    else fbeAux rest (i + 1) s2 (some c)

/-- Model of `content[i-1]`: `undefined` (here `none`) when `i = 0`. -/
def prevOpt (content : List Char) (i : Nat) : Option Char :=
  if i = 0 then none else content[i - 1]?

/-- Model of `LoopDetector.findBlockEnd(content, startIndex)`. -/
def findBlockEnd (content : List Char) (startIndex : Nat) : Nat :=
  match fbeAux (content.drop startIndex) startIndex ⟨0, false, none⟩
      (prevOpt content startIndex) with
  | some j => j
  | none => content.length

lemma braceRun_cons (s : BState) (prev : Option Char) (c : Char)
    (t : List Char) :
    braceRun s prev (c :: t) = braceRun (braceStep s prev c) (some c) t := rfl

lemma fbeAux_some (cs : List Char) :
    ∀ (i : Nat) (s : BState) (prev : Option Char) (j : Nat),
      fbeAux cs i s prev = some j →
      i < j ∧ j - i ≤ cs.length ∧
        (braceRun s prev (cs.take (j - i))).depth = 0 := by
  induction cs with
  | nil => intro i s prev j h; simp [fbeAux] at h
  | cons c rest ih =>
    intro i s prev j h
    rw [fbeAux] at h
    split at h
    · rename_i hcond
      cases h
      refine ⟨Nat.lt_succ_self i, by simp, ?_⟩
      have : i + 1 - i = 1 := by omega
      rw [this]
      simpa [braceRun] using hcond.2.2
    · have := ih (i + 1) (braceStep s prev c) (some c) j h
      obtain ⟨h1, h2, h3⟩ := this
      refine ⟨by omega, by simp; omega, ?_⟩
      have hji : j - i = (j - (i + 1)) + 1 := by omega
      rw [hji]
      rw [List.take_succ_cons, braceRun_cons]
      exact h3

lemma fbeAux_rbrace (cs : List Char) :
    ∀ (i : Nat) (s : BState) (prev : Option Char) (j : Nat),
      fbeAux cs i s prev = some j →
      ∃ k, j = i + k + 1 ∧ cs[k]? = some rbrace := by
  induction cs with
  | nil => intro i s prev j h; simp [fbeAux] at h
  | cons c rest ih =>
    intro i s prev j h
    rw [fbeAux] at h
    split at h
    · rename_i hcond
      cases h
      exact ⟨0, by omega, by simpa using hcond.1⟩
    · obtain ⟨k, hk1, hk2⟩ := ih (i + 1) (braceStep s prev c) (some c) j h
      exact ⟨k + 1, by omega, by simpa using hk2⟩

/-- The four severities the detectors assign. -/
inductive Severity
  | critical
  | high
  | medium
  | low
deriving DecidableEq, Repr

/-- One finding pushed onto `this.findings`. -/
structure Finding where
  file : List Char
  line : Nat
  type : List Char
  severity : Severity
  description : List Char
  code : Option (List Char)
  suggestion : Option (List Char)
deriving DecidableEq, Repr

/-- Model of `getLineNumber(content, index)`: newlines before the offset, plus one. -/
def getLineNumber (content : List Char) (index : Nat) : Nat :=
  ((content.take index).filter (fun c => c = '\n')).length + 1

/-- Model of `content.split('\n')`. -/
def splitLines : List Char → List (List Char)
  | [] => [[]]
  | c :: rest =>
    match splitLines rest with
    | [] => [[c]]
    | l :: ls => if c = '\n' then [] :: l :: ls else (c :: l) :: ls

/-- Model of `String.prototype.trim` over the modelled whitespace set. -/
def trimWs (cs : List Char) : List Char :=
  ((cs.dropWhile isWs).reverse.dropWhile isWs).reverse

/-- Model of `content.split('\n')[lineNum - 1].trim()` at a match offset. -/
def lineTextAt (content : List Char) (index : Nat) : List Char :=
  trimWs ((splitLines content).getD (getLineNumber content index - 1) [])

/-- A token of one of the fixed source regexes: a literal run, `\s*` or `\s+`. -/
inductive Tok
  | lit (s : List Char)
  | wsStar
  | wsPlus
deriving Repr

/-- Match a token sequence at the head of the text, returning the matched
length.  Each fixed regex of the scanner whose classes (`\s*`, literals) are
disjoint from their successors is matched this way; greedy matching is then
deterministic, as in the source's regex engine. -/
def matchToks : List Tok → List Char → Option Nat
  | [], _ => some 0
  | Tok.lit s :: ts, cs =>
    if s.isPrefixOf cs then
      (matchToks ts (cs.drop s.length)).map (fun n => n + s.length)
    else none
  | Tok.wsStar :: ts, cs =>
    let w := cs.takeWhile isWs
    (matchToks ts (cs.drop w.length)).map (fun n => n + w.length)
  | Tok.wsPlus :: ts, cs =>
    let w := cs.takeWhile isWs
    if w.length = 0 then none
    else (matchToks ts (cs.drop w.length)).map (fun n => n + w.length)

/-- The loop of `regex.exec` under the `g` flag: leftmost match, then resume
one past nothing less than the match's end (all matchers return positive
lengths; a zero-length result is skipped defensively).  Fuel is the text
length, which the step bound makes sufficient. -/
def scanMatchesAux {α : Type} (m : List Char → Option (Nat × α)) :
    Nat → List Char → Nat → List (Nat × Nat × α)
  | 0, _, _ => []
  | _ + 1, [], _ => []
  | fuel + 1, c :: rest, i =>
    match m (c :: rest) with
    | some (n + 1, a) =>
      (i, n + 1, a) :: scanMatchesAux m fuel ((c :: rest).drop (n + 1)) (i + n + 1)
    | some (0, _) => scanMatchesAux m fuel rest (i + 1)
    | none => scanMatchesAux m fuel rest (i + 1)

/-- All matches of a pattern over a text, as `(index, length, payload)`. -/
def scanMatches {α : Type} (m : List Char → Option (Nat × α)) (cs : List Char) :
    List (Nat × Nat × α) :=
  scanMatchesAux m cs.length cs 0

/-- Model of `regex.test`: does the pattern match at some position? -/
def anyPos (p : List Char → Bool) : List Char → Bool
  | [] => p []
  | c :: rest => p (c :: rest) || anyPos p rest

/-- Lift a `matchToks` pattern to a `scanMatches` matcher. -/
def tokM (pat : List Tok) (cs : List Char) : Option (Nat × Unit) :=
  (matchToks pat cs).map (fun n => (n, ()))

def strL (s : String) : List Char := s.toList

/-- Model of `/while\s*\(\s*true\s*\)/`. -/
def whileTruePat : List Tok :=
  [Tok.lit (strL "while"), Tok.wsStar, Tok.lit (strL "("), Tok.wsStar,
   Tok.lit (strL "true"), Tok.wsStar, Tok.lit (strL ")")]

/-- Model of `/while\s*\(\s*1\s*\)/`. -/
def whileOnePat : List Tok :=
  [Tok.lit (strL "while"), Tok.wsStar, Tok.lit (strL "("), Tok.wsStar,
   Tok.lit (strL "1"), Tok.wsStar, Tok.lit (strL ")")]

/-- Model of `/while\s*\(\s*!!true\s*\)/`. -/
def whileBangPat : List Tok :=
  [Tok.lit (strL "while"), Tok.wsStar, Tok.lit (strL "("), Tok.wsStar,
   Tok.lit (strL "!!true"), Tok.wsStar, Tok.lit (strL ")")]

/-- Model of `/for\s*\(\s*;\s*;\s*\)/`. -/
def forSemisPat : List Tok :=
  [Tok.lit (strL "for"), Tok.wsStar, Tok.lit (strL "("), Tok.wsStar,
   Tok.lit (strL ";"), Tok.wsStar, Tok.lit (strL ";"), Tok.wsStar,
   Tok.lit (strL ")")]

/-- Model of `/for\s*\(\s*;\s*true\s*;\s*\)/`. -/
def forTruePat : List Tok :=
  [Tok.lit (strL "for"), Tok.wsStar, Tok.lit (strL "("), Tok.wsStar,
   Tok.lit (strL ";"), Tok.wsStar, Tok.lit (strL "true"), Tok.wsStar,
   Tok.lit (strL ";"), Tok.wsStar, Tok.lit (strL ")")]

/-- Model of `/break\s*;/` tested at one position. -/
def matchBreakSemi (cs : List Char) : Bool :=
  (strL "break").isPrefixOf cs &&
    (match (cs.drop 5).dropWhile isWs with
     | c :: _ => c = ';'
     | [] => false)

/-- Model of `/return\s+/` tested at one position. -/
def matchReturnWs (cs : List Char) : Bool :=
  (strL "return").isPrefixOf cs &&
    (match cs.drop 6 with
     | c :: _ => isWs c
     | [] => false)

/-- Model of `content.substring(i, findBlockEnd(content, i))`. -/
def bodyAt (content : List Char) (i : Nat) : List Char :=
  (content.drop i).take (findBlockEnd content i - i)

/-- The match offsets of `detectInfiniteWhile` that survive the
`!hasBreak && !hasReturn` filter, with each pattern's type and description. -/
def whileHits (content : List Char) : List (Nat × List Char × List Char) :=
  [(whileTruePat, strL "infinite-while", strL "while(true) infinite loop"),
   (whileOnePat, strL "infinite-while", strL "while(1) infinite loop"),
   (whileBangPat, strL "infinite-while", strL "Obfuscated infinite while")
  ].flatMap fun p =>
    (scanMatches (tokM p.1) content).filterMap fun e =>
      let block := bodyAt content e.1
      if !anyPos matchBreakSemi block && !anyPos matchReturnWs block then
        some (e.1, p.2.1, p.2.2)
      else none

/-- Model of `LoopDetector.detectInfiniteWhile`. -/
def detectInfiniteWhile (content file : List Char) : List Finding :=
  (whileHits content).map fun h =>
    { file := file, line := getLineNumber content h.1, type := h.2.1,
      severity := Severity.critical, description := h.2.2,
      code := some (lineTextAt content h.1),
      suggestion :=
        some (strL "Add break condition or use setInterval/setTimeout for async loops") }

/-- The surviving match offsets of `detectInfiniteFor`. -/
def forHits (content : List Char) : List (Nat × List Char × List Char) :=
  [(forSemisPat, strL "infinite-for", strL "for(;;) infinite loop"),
   (forTruePat, strL "infinite-for", strL "for(;true;) infinite loop")
  ].flatMap fun p =>
    (scanMatches (tokM p.1) content).filterMap fun e =>
      let block := bodyAt content e.1
      if !anyPos matchBreakSemi block && !anyPos matchReturnWs block then
        some (e.1, p.2.1, p.2.2)
      else none

/-- Model of `LoopDetector.detectInfiniteFor`. -/
def detectInfiniteFor (content file : List Char) : List Finding :=
  (forHits content).map fun h =>
    { file := file, line := getLineNumber content h.1, type := h.2.1,
      severity := Severity.critical, description := h.2.2,
      code := some (lineTextAt content h.1),
      suggestion := some (strL "Add loop termination condition or break statement") }

/-- Consume a literal. -/
def pLit (s cs : List Char) : Option (List Char) :=
  if s.isPrefixOf cs then some (cs.drop s.length) else none

/-- Consume `\s+` (at least one whitespace character). -/
def pWsPlus (cs : List Char) : Option (List Char × List Char) :=
  let w := cs.takeWhile isWs
  if w = [] then none else some (w, cs.dropWhile isWs)

/-- Consume `\w+` (at least one word character). -/
def pWordPlus (cs : List Char) : Option (List Char × List Char) :=
  let w := cs.takeWhile isWordChar
  if w = [] then none else some (w, cs.dropWhile isWordChar)

/-- Consume one expected character. -/
def pChar (c : Char) : List Char → Option (List Char)
  | x :: r => if x = c then some r else none
  | [] => none

/-- The optional `(?:async\s+)?` prefix: the consumed part (satisfying
"async" then one or more whitespace) and the rest. -/
def stripAsync (cs : List Char) : List Char × List Char :=
  if (strL "async").isPrefixOf cs then
    let r := cs.drop 5
    let w := r.takeWhile isWs
    if w = [] then ([], cs) else (strL "async" ++ w, r.dropWhile isWs)
  else ([], cs)

/-- Model of `/(?:async\s+)?function\s+(\w+)\s*\([^)]*\)\s*\{/` matched at the head of
the text: the match length and the captured function name. -/
def matchFuncDecl (cs : List Char) : Option (Nat × List Char) :=
  let a := stripAsync cs
  match pLit (strL "function") a.2 with
  | none => none
  | some cs2 =>
    match pWsPlus cs2 with
    | none => none
    | some (_, cs3) =>
      match pWordPlus cs3 with
      | none => none
      | some (nm, cs4) =>
        match pChar '(' (cs4.dropWhile isWs) with
        | none => none
        | some cs6 =>
          match pChar ')' (cs6.dropWhile (fun c => c ≠ ')')) with
          | none => none
          | some cs8 =>
            match pChar lbrace (cs8.dropWhile isWs) with
            | none => none
            | some cs10 => some (cs.length - cs10.length, nm)

/-- Model of `` new RegExp(`\b${funcName}\s*\(`) `` tested at one position, the word
boundary split off: the name, then `\s*`, then `(`. -/
def selfCallHere (nm body : List Char) : Bool :=
  nm.isPrefixOf body &&
    (match (body.drop nm.length).dropWhile isWs with
     | c :: _ => c = '('
     | [] => false)

/-- Scan for `\b${funcName}\s*\(`, carrying the previous character for the
word-boundary test. -/
def hasSelfCallGo (nm : List Char) (prev : Option Char) : List Char → Bool
  | [] => false
  | c :: rest =>
    ((match prev with
      | none => true
      | some p => !isWordChar p) && selfCallHere nm (c :: rest)) ||
      hasSelfCallGo nm (some c) rest

/-- Model of `selfCallRegex.test(funcBody)`. -/
def hasSelfCall (nm body : List Char) : Bool := hasSelfCallGo nm none body

/-- Model of `/return\s+(?!\s*\w+\s*\()/` tested at one position.  The lookahead is
evaluated past the whole whitespace run (its leading `\s*` makes the result
independent of how much `\s+` consumed, so backtracking adds nothing). -/
def matchReturnNoCall (cs : List Char) : Bool :=
  (strL "return").isPrefixOf cs &&
    (match cs.drop 6 with
     | c :: _ => isWs c
     | [] => false) &&
    (let r2 := (cs.drop 6).dropWhile isWs
     let w := r2.takeWhile isWordChar
     !(!w.isEmpty &&
        (match (r2.drop w.length).dropWhile isWs with
         | c :: _ => c = '('
         | [] => false)))

/-- Model of `/if\s*\([^)]+\)\s*\{[^}]*return[^}]*\}/` tested at one position: the
text between the `{` and the first following `}` must contain `return`, and
that `}` must exist. -/
def matchIfReturn (cs : List Char) : Bool :=
  (strL "if").isPrefixOf cs &&
    (let r1 := (cs.drop 2).dropWhile isWs
     match r1 with
     | c :: r2 =>
       c = '(' &&
         (let ps := r2.takeWhile (fun ch => ch ≠ ')')
          !ps.isEmpty &&
            (match r2.drop ps.length with
             | c2 :: r3 =>
               c2 = ')' &&
                 (match r3.dropWhile isWs with
                  | c3 :: r4 =>
                    c3 = lbrace &&
                      (let bs := r4.takeWhile (fun ch => ch ≠ rbrace)
                       anyPos (fun s => (strL "return").isPrefixOf s) bs &&
                         !(r4.drop bs.length).isEmpty)
                  | [] => false)
             | [] => false))
     | [] => false)

/-- The base-case heuristic of `detectRecursionWithoutBaseCase`. -/
def hasBaseCase (body : List Char) : Bool :=
  anyPos matchReturnNoCall body || anyPos matchIfReturn body

/-- The `(funcStart, funcName)` pairs of `detectRecursionWithoutBaseCase`
that survive the `hasSelfCall && !hasBaseCase` filter. -/
def recursionHits (content : List Char) : List (Nat × List Char) :=
  (scanMatches matchFuncDecl content).filterMap fun e =>
    let body := bodyAt content e.1
    if hasSelfCall e.2.2 body && !hasBaseCase body then some (e.1, e.2.2)
    else none

/-- Model of `LoopDetector.detectRecursionWithoutBaseCase`. -/
def detectRecursionWithoutBaseCase (content file : List Char) : List Finding :=
  (recursionHits content).map fun h =>
    { file := file, line := getLineNumber content h.1,
      type := strL "unbounded-recursion", severity := Severity.high,
      description :=
        strL "Function \x27" ++ h.2 ++ strL "\x27 may have unbounded recursion",
      code := some (strL "function " ++ h.2 ++ strL "(...)"),
      suggestion := some (strL "Add a base case to prevent stack overflow") }

/-- The two quote characters of the listener regexes (`['"]`). -/
def isQuote1 (c : Char) : Bool := c = '"' || c = squote

/-- Model of `/\.METHOD\s*\(\s*['"]([^'"]+)['"]\s*,/` matched at the head of the text:
the match length and the captured event name.  The opening and closing
quotes are each drawn independently from the class `['"]`, as in the
source regex. -/
def matchMethodCall (meth cs : List Char) : Option (Nat × List Char) :=
  match cs with
  | c :: r0 =>
    if c = '.' then
      if meth.isPrefixOf r0 then
        let r1 := r0.drop meth.length
        match (r1.dropWhile isWs) with
        | c2 :: r3 =>
          if c2 = '(' then
            match r3.dropWhile isWs with
            | q :: r5 =>
              if isQuote1 q then
                let nm := r5.takeWhile (fun ch => !isQuote1 ch)
                if nm = [] then none
                else
                  match r5.drop nm.length with
                  | q2 :: r6 =>
                    if isQuote1 q2 then
                      match r6.dropWhile isWs with
                      | c3 :: r7 =>
                        if c3 = ',' then some (cs.length - r7.length, nm)
                        else none
                      | [] => none
                    else none
                  | [] => none
              else none
            | [] => none
          else none
        | [] => none
      else none
    else none
  | [] => none

/-- Model of `addListenerRegex`: `/\.on\s*\(\s*['"]([^'"]+)['"]\s*,/`. -/
def matchOnCall (cs : List Char) : Option (Nat × List Char) :=
  matchMethodCall (strL "on") cs

/-- Model of `removeListenerRegex`: the `\.off` alternative, then `\.removeListener`;
the captured name is `match[1] || match[2]`. -/
def matchOffOrRemove (cs : List Char) : Option (Nat × List Char) :=
  match matchMethodCall (strL "off") cs with
  | some r => some r
  | none => matchMethodCall (strL "removeListener") cs

/-- Model of `Set.add`: JavaScript sets keep insertion order without duplicates. -/
def insertUniq (l : List (List Char)) (x : List Char) : List (List Char) :=
  if l.contains x then l else l ++ [x]

/-- The `added` set of `detectEventEmitterLeaks`, in insertion order. -/
def addedEvents (content : List Char) : List (List Char) :=
  (scanMatches matchOnCall content).foldl (fun acc e => insertUniq acc e.2.2) []

/-- The `removed` set of `detectEventEmitterLeaks`. -/
def removedEvents (content : List Char) : List (List Char) :=
  (scanMatches matchOffOrRemove content).foldl (fun acc e => insertUniq acc e.2.2) []

/-- The pattern string handed to `` new RegExp(`\.on\s*\(\s*['"]${event}['"]`) ``:
the event name is spliced in unescaped. -/
def onEventPattern (ev : List Char) : List Char :=
  strL "\\.on\\s*\\(\\s*[\x27\"]" ++ ev ++ strL "[\x27\"]"

/-- Syntactic validity of a JavaScript regular-expression pattern, as
`new RegExp` checks it before any matching: group parentheses must balance
outside character classes, a character class opened by `[` runs to the next
unescaped `]`, and a trailing backslash is an error.  Quantifier-position and
group-kind errors are not modelled: the check may accept a pattern the
engine rejects, never the reverse. -/
def rgxGo : List Char → Nat → Bool → Bool
  | [], depth, inClass => decide (depth = 0) && !inClass
  | c :: rest, depth, inClass =>
    if c = '\\' then
      match rest with
      | [] => false
      | _ :: rest2 => rgxGo rest2 depth inClass
    else if inClass then
      if c = ']' then rgxGo rest depth false else rgxGo rest depth true
    else if c = '[' then rgxGo rest depth true
    else if c = '(' then rgxGo rest (depth + 1) inClass
    else if c = ')' then
      match depth with
      | 0 => false
      | d + 1 => rgxGo rest d inClass
    else rgxGo rest depth inClass

def regexSyntaxOk (cs : List Char) : Bool := rgxGo cs 0 false

/-- The dynamic per-event regex tested at one position, the event characters
read literally (it coincides with the source regex whenever the event name
holds no regex metacharacters — the only names reaching a successful match
in the claims below). -/
def matchOnEventLit (ev cs : List Char) : Bool :=
  match cs with
  | c :: r0 =>
    c = '.' && (strL "on").isPrefixOf r0 &&
      (match (r0.drop 2).dropWhile isWs with
       | c2 :: r2 =>
         c2 = '(' &&
           (match r2.dropWhile isWs with
            | q :: r4 =>
              isQuote1 q && ev.isPrefixOf r4 &&
                (match r4.drop ev.length with
                 | q2 :: _ => isQuote1 q2
                 | [] => false)
            | [] => false)
       | [] => false)
  | [] => false

/-- Model of `content.match(regex)`: index of the first position where the pattern
matches. -/
def firstIdx (p : List Char → Bool) : List Char → Nat → Option Nat
  | [], _ => none
  | c :: rest, i => if p (c :: rest) then some i else firstIdx p rest (i + 1)

def mkLeakDesc (ev : List Char) : List Char :=
  strL "Event listener \x27" ++ ev ++ strL "\x27 added but never removed"

def mkLeakFinding (file content : List Char) (idx : Nat) (ev : List Char) :
    Finding :=
  { file := file, line := getLineNumber content idx, type := strL "event-leak",
    severity := Severity.low, description := mkLeakDesc ev, code := none,
    suggestion := some (strL "Call .off() or .removeListener() when done") }

/-- The `for (const event of added)` loop: a name in `removed` is skipped, a
name whose spliced pattern is not a valid regex raises (`new RegExp` throws a
`SyntaxError`), otherwise the first `.on` occurrence yields one finding. -/
def leaksGo (content file : List Char) (removed : List (List Char)) :
    List (List Char) → Except (List Char) (List Finding)
  | [] => Except.ok []
  | ev :: rest =>
    if removed.contains ev then leaksGo content file removed rest
    else if regexSyntaxOk (onEventPattern ev) then
      match firstIdx (matchOnEventLit ev) content 0 with
      | some i =>
        match leaksGo content file removed rest with
        | Except.ok l => Except.ok (mkLeakFinding file content i ev :: l)
        | Except.error e => Except.error e
      | none => leaksGo content file removed rest
    else Except.error (onEventPattern ev)

/-- Model of `LoopDetector.detectEventEmitterLeaks`, its possible `SyntaxError` made
explicit in the result type. -/
def detectEventEmitterLeaksE (content file : List Char) :
    Except (List Char) (List Finding) :=
  leaksGo content file (removedEvents content) (addedEvents content)

/-- Model of `/while\s*\([^)]+\)\s*\{[^}]*\}/` (and the `for` variant) matched at the
head of the text: the whole match's length. -/
def matchLoopBlock (kw cs : List Char) : Option (Nat × Unit) :=
  if kw.isPrefixOf cs then
    let r1 := cs.drop kw.length
    match r1.dropWhile isWs with
    | c :: r2 =>
      if c = '(' then
        let ps := r2.takeWhile (fun ch => ch ≠ ')')
        if ps = [] then none
        else
          match r2.drop ps.length with
          | c2 :: r3 =>
            if c2 = ')' then
              match r3.dropWhile isWs with
              | c3 :: r4 =>
                if c3 = lbrace then
                  let bs := r4.takeWhile (fun ch => ch ≠ rbrace)
                  match r4.drop bs.length with
                  | c4 :: r5 =>
                    if c4 = rbrace then some (cs.length - r5.length, ())
                    else none
                  | [] => none
                else none
              | [] => none
            else none
          | [] => none
      else none
    | [] => none
  else none

/-- Model of `/(fetch|readFile|query|request)\s*\(/` tested at one position. -/
def matchIoCall (cs : List Char) : Bool :=
  [strL "fetch", strL "readFile", strL "query", strL "request"].any fun n =>
    n.isPrefixOf cs &&
      (match (cs.drop n.length).dropWhile isWs with
       | c :: _ => c = '('
       | [] => false)

/-- Model of `/await\s+/` tested at one position. -/
def matchAwaitWs (cs : List Char) : Bool :=
  (strL "await").isPrefixOf cs &&
    (match cs.drop 5 with
     | c :: _ => isWs c
     | [] => false)

/-- The surviving matches of `detectBlockingPatterns`: offset, matched block
and description. -/
def blockingHits (content : List Char) : List (Nat × List Char × List Char) :=
  [(strL "while", strL "Potentially blocking synchronous loop"),
   (strL "for", strL "Potentially blocking synchronous for loop")
  ].flatMap fun p =>
    (scanMatches (matchLoopBlock p.1) content).filterMap fun e =>
      let block := (content.drop e.1).take e.2.1
      if anyPos matchIoCall block && !anyPos matchAwaitWs block then
        some (e.1, block, p.2)
      else none

/-- Model of `LoopDetector.detectBlockingPatterns`. -/
def detectBlockingPatterns (content file : List Char) : List Finding :=
  (blockingHits content).map fun h =>
    { file := file, line := getLineNumber content h.1,
      type := strL "blocking-loop", severity := Severity.medium,
      description := h.2.2 ++ strL " with async operations",
      code := some (trimWs ((splitLines h.2.1).getD 0 [])),
      suggestion := some (strL "Use await or convert to async iterator") }

/-- Model of `/Promise\.all\s*\(\s*\[\s*\]\s*\)/`. -/
def promiseAllPat : List Tok :=
  [Tok.lit (strL "Promise.all"), Tok.wsStar, Tok.lit (strL "("), Tok.wsStar,
   Tok.lit (strL "["), Tok.wsStar, Tok.lit (strL "]"), Tok.wsStar,
   Tok.lit (strL ")")]

/-- Model of `/await\s+new\s+Promise\s*\(\s*\(\s*\)\s*=>/`. -/
def promiseNeverPat : List Tok :=
  [Tok.lit (strL "await"), Tok.wsPlus, Tok.lit (strL "new"), Tok.wsPlus,
   Tok.lit (strL "Promise"), Tok.wsStar, Tok.lit (strL "("), Tok.wsStar,
   Tok.lit (strL "("), Tok.wsStar, Tok.lit (strL ")"), Tok.wsStar,
   Tok.lit (strL "=>")]

/-- The matches of `detectPromiseDeadlocks`. -/
def promiseHits (content : List Char) : List (Nat × List Char × List Char) :=
  [(promiseAllPat, strL "empty-promise-all",
    strL "Promise.all with empty array (may indicate logic error)"),
   (promiseNeverPat, strL "unresolved-promise",
    strL "Promise never resolves (no resolve/reject callback)")
  ].flatMap fun p =>
    (scanMatches (tokM p.1) content).map fun e => (e.1, p.2.1, p.2.2)

/-- Model of `LoopDetector.detectPromiseDeadlocks`. -/
def detectPromiseDeadlocks (content file : List Char) : List Finding :=
  (promiseHits content).map fun h =>
    { file := file, line := getLineNumber content h.1, type := h.2.1,
      severity := Severity.high, description := h.2.2,
      code := some (lineTextAt content h.1), suggestion := none }

/-- One file's pass through the six detectors of `detect`, in source order;
the listener-leak detector's possible throw aborts the file's scan. -/
def scanFile (content file : List Char) : Except (List Char) (List Finding) :=
  match detectEventEmitterLeaksE content file with
  | Except.error e => Except.error e
  | Except.ok leaks =>
    Except.ok
      (detectInfiniteWhile content file ++ detectInfiniteFor content file ++
        detectRecursionWithoutBaseCase content file ++
        detectBlockingPatterns content file ++
        detectPromiseDeadlocks content file ++ leaks)

/-- The file loop of `LoopDetector.detect`: each entry is a path with the
outcome of its `fs.readFileSync` (the read either yields the text or
throws).  The loop has no try/catch, so the first raised error — a read
failure or a detector throw — propagates and ends the batch. -/
def runDetect :
    List (List Char × Except (List Char) (List Char)) →
      Except (List Char) (List Finding)
  | [] => Except.ok []
  | (_, Except.error e) :: _ => Except.error e
  | (file, Except.ok content) :: rest =>
    match scanFile content file with
    | Except.error e => Except.error e
    | Except.ok fs =>
      match runDetect rest with
      | Except.error e => Except.error e
      | Except.ok more => Except.ok (fs ++ more)

/-- Model of `p` ends with `s`. -/
def endsWithB (p s : List Char) : Bool := s.reverse.isPrefixOf p.reverse

/-- The extension table of `getSourceFiles`, already dotted. -/
def dottedExts : List (List Char) :=
  [strL ".js", strL ".ts", strL ".jsx", strL ".tsx"]

/-- Model of `glob.sync` over an in-memory enumeration of the target tree (the spec's
file-enumeration collaborator): the listed paths carrying the extension, in
enumeration order. -/
def globMatches (ext : List Char) (fsFiles : List (List Char)) :
    List (List Char) :=
  fsFiles.filter fun p => endsWithB p ext

/-- Model of `text.includes(pat)`. -/
def containsSub (pat cs : List Char) : Bool :=
  anyPos (fun s => pat.isPrefixOf s) cs

/-- Model of `LoopDetector.getSourceFiles`: one glob per extension, results
concatenated in the fixed extension order, then the `node_modules` filter. -/
def getSourceFiles (fsFiles : List (List Char)) : List (List Char) :=
  (dottedExts.flatMap fun e => globMatches e fsFiles).filter fun p =>
    !containsSub (strL "node_modules") p

/-- The `summary` object of `saveReport`. -/
structure Summary where
  total : Nat
  critical : Nat
  high : Nat
  medium : Nat
  low : Nat
deriving DecidableEq, Repr

/-- The persisted report of `saveReport`. -/
structure ScanReport where
  generated : List Char
  target : List Char
  findings : List Finding
  summary : Summary
deriving DecidableEq, Repr

/-- The report object `saveReport` serialises (the timestamp passed in). -/
def buildReport (generated target : List Char) (findings : List Finding) :
    ScanReport :=
  { generated := generated, target := target, findings := findings,
    summary :=
      { total := findings.length,
        critical :=
          (findings.filter fun f => f.severity == Severity.critical).length,
        high := (findings.filter fun f => f.severity == Severity.high).length,
        medium :=
          (findings.filter fun f => f.severity == Severity.medium).length,
        low := (findings.filter fun f => f.severity == Severity.low).length } }

/-- Lexicographic order on paths, by character code. -/
def pathLe : List Char → List Char → Bool
  | [], _ => true
  | _ :: _, [] => false
  | a :: xs, b :: ys => if a = b then pathLe xs ys else decide (a.toNat < b.toNat)

/-- Index of the one extension of `dottedExts` a path carries (4 when none). -/
def extIdx (p : List Char) : Nat :=
  dottedExts.findIdx fun e => endsWithB p e

/-- The character standing before `tail` once `xs` has been scanned, given
the character standing before `xs`. -/
def prevAfterL (xs : List Char) (prev : Option Char) : Option Char :=
  match xs.getLast? with
  | some c => some c
  | none => prev

lemma severity_partition (l : List Finding) :
    (l.filter fun f => f.severity == Severity.critical).length +
      (l.filter fun f => f.severity == Severity.high).length +
      (l.filter fun f => f.severity == Severity.medium).length +
      (l.filter fun f => f.severity == Severity.low).length = l.length := by
  induction l with
  | nil => rfl
  | cons f rest ih =>
    cases h : f.severity <;> simp [List.filter_cons, h] <;> omega

/-- C2: the unconditional-loop detector on `while (true) { return 1; }`
emits zero critical findings, and on `while (true) { x++; }` exactly one. -/
theorem c2_while_examples :
    ((detectInfiniteWhile (strL "while (true) \x7b return 1; \x7d")
          (strL "test.js")).filter fun f =>
        f.severity == Severity.critical).length = 0 ∧
    ((detectInfiniteWhile (strL "while (true) \x7b x++; \x7d")
          (strL "test.js")).filter fun f =>
        f.severity == Severity.critical).length = 1 :=
  ⟨rfl, rfl⟩

/-- C3: the unbounded-recursion detector emits no finding for
`function f(n) { if (n <= 0) return 0; return f(n-1); }` and exactly one
high finding for `function g(n) { return g(n+1); }`. -/
theorem c3_recursion_examples :
    detectRecursionWithoutBaseCase
        (strL "function f(n) \x7b if (n <= 0) return 0; return f(n-1); \x7d")
        (strL "test.js") = [] ∧
    ((detectRecursionWithoutBaseCase
          (strL "function g(n) \x7b return g(n+1); \x7d")
          (strL "test.js")).map fun f => f.severity) = [Severity.high] :=
  ⟨rfl, rfl⟩

/-- C4: the persisted report's summary is the partition of the findings by
severity — each counter equals the number of findings of that severity, and
the four counters sum to the number of findings, for every findings list
(the empty one included). -/
theorem c4_summary_partition (generated target : List Char)
    (findings : List Finding) :
    (buildReport generated target findings).summary.critical =
        (findings.filter fun f => f.severity == Severity.critical).length ∧
    (buildReport generated target findings).summary.high =
        (findings.filter fun f => f.severity == Severity.high).length ∧
    (buildReport generated target findings).summary.medium =
        (findings.filter fun f => f.severity == Severity.medium).length ∧
    (buildReport generated target findings).summary.low =
        (findings.filter fun f => f.severity == Severity.low).length ∧
    (buildReport generated target findings).summary.critical +
        (buildReport generated target findings).summary.high +
        (buildReport generated target findings).summary.medium +
        (buildReport generated target findings).summary.low =
      findings.length ∧
    (buildReport generated target findings).summary.total = findings.length :=
  ⟨rfl, rfl, rfl, rfl, severity_partition findings, rfl⟩

/-- C5 evaluation: on a file whose event name holds a regex metacharacter,
the listener-leak detector does not return normally — building the dynamic
regex for the name `a(b` raises, so the detector throws instead of
contributing findings.  (The claim that every detector never throws is
thereby refuted on the code.) -/
theorem c5_leak_detector_throws :
    detectEventEmitterLeaksE (strL "x.on(\"a(b\", cb)") (strL "events.js") =
      Except.error (onEventPattern (strL "a(b")) := rfl

/-- C10: an always-true `while` or `for` loop whose block exits only via
`return;` (no whitespace after the keyword) or via a `break` not followed by
a semicolon is still reported critical, because the exit tests are exactly
`/break\s*;/` and `/return\s+/`. -/
theorem c10_exit_token_shapes :
    ((detectInfiniteWhile (strL "while (true) \x7b return; \x7d")
          (strL "test.js")).map fun f => f.severity) = [Severity.critical] ∧
    ((detectInfiniteWhile (strL "while (1) \x7b break \x7d")
          (strL "test.js")).map fun f => f.severity) = [Severity.critical] ∧
    ((detectInfiniteFor (strL "for (;;) \x7b return; \x7d")
          (strL "test.js")).map fun f => f.severity) = [Severity.critical] ∧
    ((detectInfiniteFor (strL "for (;true;) \x7b break \x7d")
          (strL "test.js")).map fun f => f.severity) = [Severity.critical] ∧
    anyPos matchReturnWs (strL "return;") = false ∧
    anyPos matchBreakSemi (strL "break ") = false :=
  ⟨rfl, rfl, rfl, rfl, rfl, rfl⟩

/-- C1: at every offset holding a brace, `findBlockEnd` returns an offset
strictly past it, and either the traversed substring is brace-balanced
outside quoted regions (depth zero under the scanner's own string tracking)
or the returned offset is the text's length (no matching close found). -/
theorem c1_findBlockEnd_balanced (text : List Char) (i : Nat) (c : Char)
    (hc : text[i]? = some c) (hbr : c = lbrace ∨ c = rbrace) :
    i < findBlockEnd text i ∧
      ((braceRun ⟨0, false, none⟩ (prevOpt text i)
            ((text.drop i).take (findBlockEnd text i - i))).depth = 0 ∨
        findBlockEnd text i = text.length) := by
  have hi : i < text.length := by
    by_contra h
    rw [List.getElem?_eq_none (by omega)] at hc
    cases hc
  rcases h : fbeAux (text.drop i) i ⟨0, false, none⟩ (prevOpt text i) with _ | j
  · simp only [findBlockEnd, h]
    exact ⟨hi, Or.inr trivial⟩
  · simp only [findBlockEnd, h]
    obtain ⟨h1, _, h3⟩ := fbeAux_some (text.drop i) i ⟨0, false, none⟩
      (prevOpt text i) j h
    exact ⟨h1, Or.inl h3⟩

theorem c1_findBlockEnd_witness :
    0 < findBlockEnd (strL "\x7bx\x7d") 0 ∧
      ((braceRun ⟨0, false, none⟩ (prevOpt (strL "\x7bx\x7d") 0)
            (((strL "\x7bx\x7d").drop 0).take
              (findBlockEnd (strL "\x7bx\x7d") 0 - 0))).depth = 0 ∨
        findBlockEnd (strL "\x7bx\x7d") 0 = (strL "\x7bx\x7d").length) :=
  c1_findBlockEnd_balanced (strL "\x7bx\x7d") 0 lbrace (by decide)
    (Or.inl rfl)

/-- C6 counterexample: a single file's read failure ends the whole batch —
`detect` returns the error, although the remaining file would have produced
a finding had the scan continued. -/
theorem c6_read_failure_counterexample :
    runDetect
        [(strL "bad.js", Except.error (strL "EACCES: permission denied")),
         (strL "good.js", Except.ok (strL "while (true) \x7b x++; \x7d"))] =
      Except.error (strL "EACCES: permission denied") ∧
    ∃ l, scanFile (strL "while (true) \x7b x++; \x7d") (strL "good.js") =
        Except.ok l ∧ l.length = 1 := by
  exact ⟨rfl, _, rfl, rfl⟩

/-- C6 (amended): the file loop of `detect` has no per-file error handling —
when a file's read fails, the error propagates and the whole batch aborts at
the first failing file, whatever files follow. -/
theorem c6_read_failure_aborts
    (pre : List (List Char × Except (List Char) (List Char)))
    (file e : List Char)
    (post : List (List Char × Except (List Char) (List Char)))
    (hpre : ∀ q ∈ pre, ∃ c, q.2 = Except.ok c ∧
      ∃ l, scanFile c q.1 = Except.ok l) :
    runDetect (pre ++ (file, Except.error e) :: post) = Except.error e := by
  induction pre with
  | nil => rfl
  | cons q rest ih =>
    obtain ⟨f, s⟩ := q
    obtain ⟨c, hq, l, hl⟩ := hpre (f, s) (by simp)
    simp only at hq
    subst hq
    have htail := ih fun q hq2 => hpre q (by simp [hq2])
    simp only [List.cons_append, runDetect, hl, List.append_eq, htail]

theorem c6_read_failure_aborts_witness :
    runDetect
        [(strL "ok.js", Except.ok (strL "let y = 2;")),
         (strL "bad.js", Except.error (strL "EACCES")),
         (strL "late.js", Except.ok (strL "x()"))] =
      Except.error (strL "EACCES") :=
  c6_read_failure_aborts [(strL "ok.js", Except.ok (strL "let y = 2;"))]
    (strL "bad.js") (strL "EACCES")
    [(strL "late.js", Except.ok (strL "x()"))]
    (by
      intro q hq
      simp only [List.mem_singleton] at hq
      subst hq
      exact ⟨strL "let y = 2;", rfl, [], rfl⟩)

/-- C7 counterexample: on an enumeration holding `a.ts` and `b.js`,
`getSourceFiles` returns `b.js` before `a.ts` — not lexicographic order. -/
theorem c7_not_lexicographic :
    getSourceFiles [strL "a.ts", strL "b.js"] = [strL "b.js", strL "a.ts"] ∧
    pathLe (strL "a.ts") (strL "b.js") = true ∧
    ¬ List.Pairwise (fun p q => pathLe p q = true)
        (getSourceFiles [strL "a.ts", strL "b.js"]) := by
  refine ⟨rfl, rfl, fun h => ?_⟩
  rw [show getSourceFiles [strL "a.ts", strL "b.js"] =
      [strL "b.js", strL "a.ts"] from rfl] at h
  exact absurd ((List.pairwise_cons.mp h).1 (strL "a.ts") (by simp)) (by decide)

lemma endsWithB_unique (p s t : List Char) (hs : endsWithB p s = true)
    (ht : endsWithB p t = true) (hst : ¬ s.reverse <+: t.reverse)
    (hts : ¬ t.reverse <+: s.reverse) : False := by
  rw [endsWithB, List.isPrefixOf_iff_prefix] at hs ht
  rcases List.prefix_or_prefix_of_prefix hs ht with h | h
  exacts [hst h, hts h]

lemma extIdx_of_mem_group (p e : List Char) (he : e ∈ dottedExts)
    (hp : endsWithB p e = true) : extIdx p = dottedExts.indexOf e := by
  fin_cases he <;>
    simp only [extIdx, dottedExts, List.findIdx_cons, List.indexOf_cons, hp] <;>
    [skip;
     rw [show endsWithB p (strL ".js") = false from by
           by_contra hc
           simp only [Bool.not_eq_false] at hc
           exact endsWithB_unique p _ _ hc hp (by decide) (by decide)];
     rw [show endsWithB p (strL ".js") = false from by
           by_contra hc
           simp only [Bool.not_eq_false] at hc
           exact endsWithB_unique p _ _ hc hp (by decide) (by decide),
         show endsWithB p (strL ".ts") = false from by
           by_contra hc
           simp only [Bool.not_eq_false] at hc
           exact endsWithB_unique p _ _ hc hp (by decide) (by decide)];
     rw [show endsWithB p (strL ".js") = false from by
           by_contra hc
           simp only [Bool.not_eq_false] at hc
           exact endsWithB_unique p _ _ hc hp (by decide) (by decide),
         show endsWithB p (strL ".ts") = false from by
           by_contra hc
           simp only [Bool.not_eq_false] at hc
           exact endsWithB_unique p _ _ hc hp (by decide) (by decide),
         show endsWithB p (strL ".jsx") = false from by
           by_contra hc
           simp only [Bool.not_eq_false] at hc
           exact endsWithB_unique p _ _ hc hp (by decide) (by decide)]] <;>
    simp <;> decide

lemma pairwise_of_mem_rel {α : Type} {R : α → α → Prop} :
    ∀ l : List α, (∀ a ∈ l, ∀ b ∈ l, R a b) → List.Pairwise R l
  | [], _ => List.Pairwise.nil
  | a :: l, h =>
    List.Pairwise.cons (fun b hb => h a (by simp) b (by simp [hb]))
      (pairwise_of_mem_rel l fun x hx y hy =>
        h x (by simp [hx]) y (by simp [hy]))

/-- C7 (amended): `getSourceFiles` returns the files grouped by extension in
the fixed order js, ts, jsx, tsx (each group in the enumeration's own
order, the `node_modules` filter applied); the order is deterministic but
not lexicographic across groups. -/
theorem c7_grouped_by_extension (fsFiles : List (List Char)) :
    List.Pairwise (fun p q => extIdx p ≤ extIdx q) (getSourceFiles fsFiles) := by
  apply List.Pairwise.filter
  have hgroup : ∀ e, ∀ p ∈ globMatches e fsFiles, endsWithB p e = true := by
    intro e p hp
    exact (List.mem_filter.mp hp).2
  simp only [dottedExts, List.flatMap_cons, List.flatMap_nil, List.append_nil]
  rw [List.pairwise_append]
  refine ⟨?_, ?_, ?_⟩
  · apply pairwise_of_mem_rel
    intro a ha b hb
    rw [extIdx_of_mem_group a _ (by simp [dottedExts]) (hgroup _ a ha),
      extIdx_of_mem_group b _ (by simp [dottedExts]) (hgroup _ b hb)]
  · rw [List.pairwise_append]
    refine ⟨?_, ?_, ?_⟩
    · apply pairwise_of_mem_rel
      intro a ha b hb
      rw [extIdx_of_mem_group a _ (by simp [dottedExts]) (hgroup _ a ha),
        extIdx_of_mem_group b _ (by simp [dottedExts]) (hgroup _ b hb)]
    · rw [List.pairwise_append]
      refine ⟨?_, ?_, ?_⟩
      · apply pairwise_of_mem_rel
        intro a ha b hb
        rw [extIdx_of_mem_group a _ (by simp [dottedExts]) (hgroup _ a ha),
          extIdx_of_mem_group b _ (by simp [dottedExts]) (hgroup _ b hb)]
      · apply pairwise_of_mem_rel
        intro a ha b hb
        rw [extIdx_of_mem_group a _ (by simp [dottedExts]) (hgroup _ a ha),
          extIdx_of_mem_group b _ (by simp [dottedExts]) (hgroup _ b hb)]
      · intro a ha b hb
        rw [extIdx_of_mem_group a _ (by simp [dottedExts]) (hgroup _ a ha),
          extIdx_of_mem_group b _ (by simp [dottedExts]) (hgroup _ b hb)]
        decide
    · intro a ha b hb
      rcases List.mem_append.mp hb with hb | hb <;>
        rw [extIdx_of_mem_group a _ (by simp [dottedExts]) (hgroup _ a ha),
          extIdx_of_mem_group b _ (by simp [dottedExts]) (hgroup _ b hb)] <;>
        decide
  · intro a ha b hb
    rcases List.mem_append.mp hb with hb | hb
    · rw [extIdx_of_mem_group a _ (by simp [dottedExts]) (hgroup _ a ha),
        extIdx_of_mem_group b _ (by simp [dottedExts]) (hgroup _ b hb)]
      decide
    rcases List.mem_append.mp hb with hb | hb <;>
      rw [extIdx_of_mem_group a _ (by simp [dottedExts]) (hgroup _ a ha),
        extIdx_of_mem_group b _ (by simp [dottedExts]) (hgroup _ b hb)] <;>
      decide

lemma mkLeakDesc_inj (a b : List Char) (h : mkLeakDesc a = mkLeakDesc b) :
    a = b := by
  unfold mkLeakDesc at h
  exact List.append_cancel_left (List.append_cancel_right h)

lemma leaksGo_desc (content file : List Char) (removed : List (List Char)) :
    ∀ (evs : List (List Char)) (l : List Finding),
      leaksGo content file removed evs = Except.ok l →
      ∀ fd ∈ l, ∃ e, fd.description = mkLeakDesc e ∧
        removed.contains e = false := by
  intro evs
  induction evs with
  | nil =>
    intro l h fd hfd
    cases h
    simp at hfd
  | cons ev rest ih =>
    intro l h fd hfd
    rw [leaksGo] at h
    split at h
    · exact ih l h fd hfd
    · rename_i hnotrem
      split at h
      · split at h
        · rename_i i hi
          split at h
          · rename_i l2 hl2
            cases h
            rcases List.mem_cons.mp hfd with hfd | hfd
            · subst hfd
              exact ⟨ev, rfl, by simpa using hnotrem⟩
            · exact ih l2 hl2 fd hfd
          · cases h
        · exact ih l h fd hfd
      · cases h

/-- C8: a file containing `on("data", cb)` (the emitter call `.on`) with no
matching `off("data", ...)` yields exactly one low finding for `data`, and a
matching `off("data", cb)` in the same file suppresses it — generally, no
finding is emitted for any event name in the removed set. -/
theorem c8_listener_leak :
    detectEventEmitterLeaksE (strL "emitter.on(\"data\", cb)")
        (strL "app.js") =
      Except.ok [mkLeakFinding (strL "app.js")
        (strL "emitter.on(\"data\", cb)") 7 (strL "data")] ∧
    (mkLeakFinding (strL "app.js") (strL "emitter.on(\"data\", cb)") 7
        (strL "data")).severity = Severity.low ∧
    detectEventEmitterLeaksE
        (strL "emitter.on(\"data\", cb); emitter.off(\"data\", cb)")
        (strL "app.js") = Except.ok [] ∧
    ∀ (content file ev : List Char) (l : List Finding),
      (removedEvents content).contains ev = true →
      detectEventEmitterLeaksE content file = Except.ok l →
      ∀ fd ∈ l, fd.description ≠ mkLeakDesc ev := by
  refine ⟨rfl, rfl, rfl, ?_⟩
  intro content file ev l hrem hok fd hfd hdesc
  obtain ⟨e, he, hce⟩ := leaksGo_desc content file (removedEvents content)
    (addedEvents content) l hok fd hfd
  rw [hdesc] at he
  rw [mkLeakDesc_inj ev e he] at hrem
  rw [hrem] at hce
  cases hce

theorem c8_listener_leak_witness :
    (removedEvents
        (strL "a.on(\"x\", f); a.on(\"data\", g); a.off(\"data\", h);")
      ).contains (strL "data") = true ∧
    (mkLeakFinding (strL "w.js")
        (strL "a.on(\"x\", f); a.on(\"data\", g); a.off(\"data\", h);") 1
        (strL "x")).description ≠ mkLeakDesc (strL "data") :=
  ⟨by decide,
   c8_listener_leak.2.2.2
     (strL "a.on(\"x\", f); a.on(\"data\", g); a.off(\"data\", h);")
     (strL "w.js") (strL "data")
     [mkLeakFinding (strL "w.js")
       (strL "a.on(\"x\", f); a.on(\"data\", g); a.off(\"data\", h);") 1
       (strL "x")]
     (by decide) rfl _ (by simp)⟩

lemma ws_not_word {c : Char} (h : isWs c = true) : isWordChar c = false := by
  unfold isWs at h
  unfold isWordChar
  simp only [Bool.or_eq_true, decide_eq_true_eq, Bool.and_eq_true,
    Bool.or_eq_false_iff, Bool.and_eq_false_imp, decide_eq_false_iff_not] at h ⊢
  omega

lemma ws_ne_rbrace {c : Char} (h : isWs c = true) : c ≠ rbrace := by
  intro he
  subst he
  exact absurd h (by decide)

lemma word_ne_rbrace {c : Char} (h : isWordChar c = true) : c ≠ rbrace := by
  intro he
  subst he
  exact absurd h (by decide)

lemma pLit_eq_some {s cs r : List Char} (h : pLit s cs = some r) :
    cs = s ++ r := by
  unfold pLit at h
  split at h
  · rename_i hp
    obtain ⟨t, ht⟩ := List.isPrefixOf_iff_prefix.mp hp
    cases h
    rw [← ht, List.drop_left]
  · cases h

lemma pWsPlus_eq_some {cs w r : List Char} (h : pWsPlus cs = some (w, r)) :
    cs = w ++ r ∧ w ≠ [] ∧ ∀ c ∈ w, isWs c = true := by
  by_cases hw : cs.takeWhile isWs = []
  · simp [pWsPlus, hw] at h
  · simp only [pWsPlus, if_neg hw, Option.some.injEq, Prod.mk.injEq] at h
    obtain ⟨h1, h2⟩ := h
    subst h1
    subst h2
    exact ⟨(List.takeWhile_append_dropWhile _ _).symm, hw,
      fun c hc => List.mem_takeWhile_imp hc⟩

lemma pWordPlus_eq_some {cs w r : List Char} (h : pWordPlus cs = some (w, r)) :
    cs = w ++ r ∧ w ≠ [] ∧ ∀ c ∈ w, isWordChar c = true := by
  by_cases hw : cs.takeWhile isWordChar = []
  · simp [pWordPlus, hw] at h
  · simp only [pWordPlus, if_neg hw, Option.some.injEq, Prod.mk.injEq] at h
    obtain ⟨h1, h2⟩ := h
    subst h1
    subst h2
    exact ⟨(List.takeWhile_append_dropWhile _ _).symm, hw,
      fun c hc => List.mem_takeWhile_imp hc⟩

lemma pChar_eq_some {c : Char} {cs r : List Char} (h : pChar c cs = some r) :
    cs = c :: r := by
  cases cs with
  | nil => cases h
  | cons x t =>
    by_cases hx : x = c
    · subst hx
      simp only [pChar, if_true, eq_self_iff_true, Option.some.injEq] at h
      rw [h]
    · simp [pChar, hx] at h

lemma stripAsync_split (cs : List Char) :
    cs = (stripAsync cs).1 ++ (stripAsync cs).2 ∧
      ∀ c ∈ (stripAsync cs).1, c ≠ rbrace := by
  by_cases hp : (strL "async").isPrefixOf cs = true
  · obtain ⟨t, ht⟩ := List.isPrefixOf_iff_prefix.mp hp
    have hdrop : cs.drop 5 = t := by
      rw [← ht]
      exact List.drop_left (strL "async") t
    have hsa : stripAsync cs =
        if (cs.drop 5).takeWhile isWs = [] then ([], cs)
        else (strL "async" ++ (cs.drop 5).takeWhile isWs,
          (cs.drop 5).dropWhile isWs) := by
      unfold stripAsync
      rw [if_pos hp]
    by_cases hw : (cs.drop 5).takeWhile isWs = []
    · rw [hsa, if_pos hw]
      exact ⟨rfl, by simp⟩
    · rw [hsa, if_neg hw]
      constructor
      · rw [List.append_assoc, hdrop, List.takeWhile_append_dropWhile, ← ht]
      · intro c hc
        rcases List.mem_append.mp hc with hc | hc
        · exact (by decide : ∀ x ∈ strL "async", x ≠ rbrace) c hc
        · exact ws_ne_rbrace (List.mem_takeWhile_imp hc)
  · have hsa : stripAsync cs = ([], cs) := by
      unfold stripAsync
      rw [if_neg hp]
    rw [hsa]
    exact ⟨rfl, by simp⟩

lemma matchFuncDecl_decomp {cs : List Char} {len : Nat} {nm : List Char}
    (h : matchFuncDecl cs = some (len, nm)) :
    ∃ X w2 rest, cs = X ++ (nm ++ (w2 ++ '(' :: rest)) ∧
      (∃ wl, X.getLast? = some wl ∧ isWs wl = true) ∧
      (∀ c ∈ w2, isWs c = true) ∧ nm ≠ [] ∧
      (∀ c ∈ nm, isWordChar c = true) ∧
      (∀ c ∈ X, c ≠ rbrace) := by
  simp only [matchFuncDecl] at h
  split at h
  · cases h
  rename_i cs2 hL
  split at h
  · cases h
  rename_i w1 cs3 hW1
  split at h
  · cases h
  rename_i nm2 cs4 hNm
  split at h
  · cases h
  rename_i cs6 hP1
  split at h
  · cases h
  rename_i cs8 hP2
  split at h
  · cases h
  rename_i cs10 hP3
  simp only [Option.some.injEq, Prod.mk.injEq] at h
  obtain ⟨_, hnm⟩ := h
  subst hnm
  obtain ⟨hcs, hA⟩ := stripAsync_split cs
  have hfn := pLit_eq_some hL
  obtain ⟨hw1, hw1ne, hw1ws⟩ := pWsPlus_eq_some hW1
  obtain ⟨hnm3, hnmne, hnmw⟩ := pWordPlus_eq_some hNm
  have hw2 : cs4 = cs4.takeWhile isWs ++ ('(' :: cs6) := by
    rw [← pChar_eq_some hP1]
    exact (List.takeWhile_append_dropWhile _ _).symm
  refine ⟨(stripAsync cs).1 ++ (strL "function" ++ w1),
    cs4.takeWhile isWs, cs6, ?_, ?_, ?_, hnmne, hnmw, ?_⟩
  · conv_lhs => rw [hcs, hfn, hw1, hnm3, hw2]
    simp [List.append_assoc]
  · obtain ⟨wl, hwl⟩ :=
      Option.isSome_iff_exists.mp (List.getLast?_isSome.mpr hw1ne)
    refine ⟨wl, ?_, hw1ws wl (List.mem_of_getLast?_eq_some hwl)⟩
    simp [List.getLast?_append, hwl]
  · intro c hc
    exact List.mem_takeWhile_imp hc
  · intro c hc
    rcases List.mem_append.mp hc with hc | hc
    · exact hA c hc
    rcases List.mem_append.mp hc with hc | hc
    · exact (by decide : ∀ x ∈ strL "function", x ≠ rbrace) c hc
    · exact ws_ne_rbrace (hw1ws c hc)

lemma scanMatchesAux_mem {α : Type} (m : List Char → Option (Nat × α)) :
    ∀ (fuel : Nat) (cs : List Char) (i0 : Nat) (e : Nat × Nat × α),
      e ∈ scanMatchesAux m fuel cs i0 →
      ∃ k, e.1 = i0 + k ∧ m (cs.drop k) = some (e.2.1, e.2.2) := by
  intro fuel
  induction fuel with
  | zero => intro cs i0 e he; simp [scanMatchesAux] at he
  | succ fuel ih =>
    intro cs i0 e he
    cases cs with
    | nil => simp [scanMatchesAux] at he
    | cons c rest =>
      rw [scanMatchesAux] at he
      split at he
      · rename_i n a hm
        rcases List.mem_cons.mp he with he | he
        · subst he
          exact ⟨0, by simp, by simpa using hm⟩
        · obtain ⟨k, hk1, hk2⟩ := ih _ _ _ he
          refine ⟨n + 1 + k, by omega, ?_⟩
          rw [← hk2, List.drop_drop]
      · obtain ⟨k, hk1, hk2⟩ := ih _ _ _ he
        refine ⟨1 + k, by omega, ?_⟩
        rw [← hk2]
        rw [show (c :: rest).drop (1 + k) = rest.drop k by
          rw [Nat.add_comm]; exact List.drop_succ_cons]
      · obtain ⟨k, hk1, hk2⟩ := ih _ _ _ he
        refine ⟨1 + k, by omega, ?_⟩
        rw [← hk2]
        rw [show (c :: rest).drop (1 + k) = rest.drop k by
          rw [Nat.add_comm]; exact List.drop_succ_cons]

lemma scanMatches_mem {α : Type} {m : List Char → Option (Nat × α)}
    {cs : List Char} {e : Nat × Nat × α} (he : e ∈ scanMatches m cs) :
    m (cs.drop e.1) = some (e.2.1, e.2.2) := by
  obtain ⟨k, hk1, hk2⟩ := scanMatchesAux_mem m cs.length cs 0 e he
  rw [show e.1 = k from by omega]
  exact hk2

lemma dropWhile_append_all {p : Char → Bool} :
    ∀ (w r : List Char), (∀ c ∈ w, p c = true) →
      (w ++ r).dropWhile p = r.dropWhile p := by
  intro w
  induction w with
  | nil => intro r _; rfl
  | cons c w ih =>
    intro r h
    rw [List.cons_append, List.dropWhile_cons, if_pos (h c (by simp))]
    exact ih r fun x hx => h x (by simp [hx])

lemma prevAfterL_cons (x : Char) (xs : List Char) (prev : Option Char) :
    prevAfterL (x :: xs) prev = prevAfterL xs (some x) := by
  cases xs with
  | nil => rfl
  | cons y ys =>
    unfold prevAfterL
    rw [List.getLast?_cons_cons]
    cases h : (y :: ys).getLast? with
    | none => exact absurd (List.getLast?_eq_none_iff.mp h) (by simp)
    | some c => rfl

lemma hasSelfCallGo_cons (nm : List Char) (prev : Option Char) (c : Char)
    (rest : List Char) :
    hasSelfCallGo nm prev (c :: rest) =
      (((match prev with
         | none => true
         | some p => !isWordChar p) && selfCallHere nm (c :: rest)) ||
        hasSelfCallGo nm (some c) rest) := rfl

lemma hasSelfCallGo_append (nm : List Char) :
    ∀ (xs : List Char) (prev : Option Char) (tail : List Char),
      hasSelfCallGo nm (prevAfterL xs prev) tail = true →
      hasSelfCallGo nm prev (xs ++ tail) = true := by
  intro xs
  induction xs with
  | nil => intro prev tail h; exact h
  | cons x xs ih =>
    intro prev tail h
    rw [prevAfterL_cons] at h
    rw [List.cons_append, hasSelfCallGo_cons, ih (some x) tail h]
    simp

lemma selfCallHere_head (nm w2 rest : List Char)
    (hw2 : ∀ c ∈ w2, isWs c = true) :
    selfCallHere nm (nm ++ (w2 ++ '(' :: rest)) = true := by
  have h1 : nm.isPrefixOf (nm ++ (w2 ++ '(' :: rest)) = true :=
    List.isPrefixOf_iff_prefix.mpr (List.prefix_append _ _)
  have h2 : (nm ++ (w2 ++ '(' :: rest)).drop nm.length = w2 ++ '(' :: rest :=
    List.drop_left _ _
  have h3 : (w2 ++ '(' :: rest).dropWhile isWs = '(' :: rest := by
    rw [dropWhile_append_all _ _ hw2, List.dropWhile_cons,
      if_neg (by decide : ¬ isWs '(' = true)]
  unfold selfCallHere
  rw [h1, h2, h3]
  simp

lemma bodyAt_shape {content : List Char} {i : Nat} {X nm w2 rest : List Char}
    (hcs : content.drop i = X ++ (nm ++ (w2 ++ '(' :: rest)))
    (hX : ∀ c ∈ X, c ≠ rbrace) (hnm : ∀ c ∈ nm, isWordChar c = true)
    (hw2 : ∀ c ∈ w2, isWs c = true) :
    ∃ rest2, bodyAt content i = X ++ (nm ++ (w2 ++ '(' :: rest2)) := by
  have hP : content.drop i = (X ++ (nm ++ (w2 ++ ['(']))) ++ rest := by
    rw [hcs]
    simp [List.append_assoc]
  have hPno : ∀ c ∈ X ++ (nm ++ (w2 ++ ['('])), c ≠ rbrace := by
    intro c hc
    rcases List.mem_append.mp hc with hc | hc
    · exact hX c hc
    rcases List.mem_append.mp hc with hc | hc
    · exact word_ne_rbrace (hnm c hc)
    rcases List.mem_append.mp hc with hc | hc
    · exact ws_ne_rbrace (hw2 c hc)
    · rw [List.mem_singleton.mp hc]
      decide
  have hT : (X ++ (nm ++ (w2 ++ ['(']))).length ≤ findBlockEnd content i - i := by
    rcases h : fbeAux (content.drop i) i ⟨0, false, none⟩ (prevOpt content i)
      with _ | j
    · simp only [findBlockEnd, h]
      have hlen : (content.drop i).length = content.length - i :=
        List.length_drop _ _
      rw [hP] at hlen
      rw [List.length_append] at hlen
      omega
    · simp only [findBlockEnd, h]
      obtain ⟨k, hk1, hk2⟩ := fbeAux_rbrace _ _ _ _ _ h
      have hklen : ¬ k < (X ++ (nm ++ (w2 ++ ['(']))).length := by
        intro hlt
        rw [hP, List.getElem?_append_left hlt] at hk2
        exact hPno rbrace (List.getElem?_mem hk2) rfl
      omega
  refine ⟨rest.take ((findBlockEnd content i - i) -
    (X ++ (nm ++ (w2 ++ ['(']))).length), ?_⟩
  unfold bodyAt
  rw [hP, List.take_append_eq_append_take, List.take_of_length_le hT]
  simp [List.append_assoc]

/-- C9: the unbounded-recursion detector evaluates its self-call regex over
the block text that starts at the `function` keyword, so the declaration
header itself always satisfies the test; hence every matched named function
declaration whose resolved block fails the base-case heuristic yields a high
finding, whether or not the function ever calls itself. -/
theorem c9_header_satisfies_selfcall (content file : List Char)
    (e : Nat × Nat × List Char) (he : e ∈ scanMatches matchFuncDecl content) :
    hasSelfCall e.2.2 (bodyAt content e.1) = true ∧
    (hasBaseCase (bodyAt content e.1) = false →
      ∃ fnd ∈ detectRecursionWithoutBaseCase content file,
        fnd.severity = Severity.high ∧
        fnd.line = getLineNumber content e.1 ∧
        fnd.description =
          strL "Function \x27" ++ e.2.2 ++
            strL "\x27 may have unbounded recursion") := by
  obtain ⟨i, len, nm⟩ := e
  simp only at he ⊢
  have hm := scanMatches_mem he
  simp only at hm
  obtain ⟨X, w2, rest, hcs, ⟨wl, hwl, hwlws⟩, hw2, hnmne, hnmw, hX⟩ :=
    matchFuncDecl_decomp hm
  obtain ⟨rest2, hbody⟩ := bodyAt_shape hcs hX hnmw hw2
  have hself : hasSelfCall nm (bodyAt content i) = true := by
    rw [hbody]
    unfold hasSelfCall
    apply hasSelfCallGo_append
    rw [show prevAfterL X none = some wl from by unfold prevAfterL; rw [hwl]]
    cases nm with
    | nil => exact absurd rfl hnmne
    | cons n0 nt =>
      have hsc := selfCallHere_head (n0 :: nt) w2 rest2 hw2
      rw [List.cons_append] at hsc ⊢
      rw [hasSelfCallGo_cons]
      simp [hsc, ws_not_word hwlws]
  refine ⟨hself, fun hb => ?_⟩
  have hhit : (i, nm) ∈ recursionHits content := by
    unfold recursionHits
    apply List.mem_filterMap.mpr
    refine ⟨(i, len, nm), he, ?_⟩
    simp [hself, hb]
  exact ⟨_, List.mem_map.mpr ⟨(i, nm), hhit, rfl⟩, rfl, rfl, rfl⟩

theorem c9_header_satisfies_selfcall_witness :
    hasSelfCall (strL "h")
        (bodyAt (strL "function h(x) \x7b log(x); \x7d") 0) = true ∧
    ∃ fnd ∈ detectRecursionWithoutBaseCase
        (strL "function h(x) \x7b log(x); \x7d") (strL "app2.js"),
      fnd.severity = Severity.high ∧
      fnd.line = getLineNumber (strL "function h(x) \x7b log(x); \x7d") 0 ∧
      fnd.description = strL "Function \x27" ++ strL "h" ++
        strL "\x27 may have unbounded recursion" := by
  have h := c9_header_satisfies_selfcall
    (strL "function h(x) \x7b log(x); \x7d") (strL "app2.js")
    (0, 15, strL "h") (by decide)
  exact ⟨h.1, h.2 (by decide)⟩

end NemoScan
